import Mathlib

/-!
Verification development for the generation-job pipeline of the ai-agency
repository.  The backend job store / worker are exposed to the repository's
frontend through the HTTP client in `frontend/lib/api.ts`; the lifecycle
operations themselves are modelled here from the specification, while the
frontend-side logic (`JobsPage`, `InferenceStudio.toggle`,
`InferenceStudio.insertTag`) is embedded directly from the source.
JavaScript strings are embedded as lists of characters.
-/

namespace AiAgency

/-- Job status, from the spec (§3/§4.1) and the frontend `STATUSES` constant:
`queued | running | complete | error | cancelled`. -/
inductive Status where
  | queued
  | running
  | complete
  | error
  | cancelled
deriving DecidableEq, Repr

/-- Modelled from the spec: the immutable input snapshot of a job (§3),
prompt text plus reference-image identifiers. -/
structure Input where
  prompt : String
  imageIds : List String
deriving DecidableEq, Repr

/-- Modelled from the spec: the JobRecord of §3 (timestamps omitted;
no claim mentions them). -/
structure JobRecord where
  id : Nat
  status : Status
  progress : Option Nat
  message : Option String
  input : Input
  output : Option String
  error : Option String
  attempt : Nat
deriving DecidableEq, Repr

/-- Error taxonomy from the spec (§7). -/
inductive OpError where
  | InvalidState
  | NotFound
  | AlreadyRunning
  | BackendUnavailable
  | BackendFailure
deriving DecidableEq, Repr

/-- Modelled from the spec: job creation (§6 Create job) — the record starts
in `queued` with no progress, output or error and `attempt = 0`. -/
def createJob (id : Nat) (inp : Input) : JobRecord where
  id := id
  status := Status.queued
  progress := none
  message := none
  input := inp
  output := none
  error := none
  attempt := 0

/-- Modelled from the spec: the guarded `queued → running` transition taken by
the Executor (§4.4 step 2); the write is conditioned on the current status
(compare-and-swap, §4.1). -/
def startRun (r : JobRecord) : Except OpError JobRecord :=
  if r.status = Status.queued then
    Except.ok { r with status := Status.running }
  else Except.error OpError.InvalidState

/-- Modelled from the spec: cancel (§4.1/§6) — permitted only from `queued`
or `running`, otherwise it fails with `InvalidState`, reported to the caller
and never fatal. -/
def cancel (r : JobRecord) : Except OpError JobRecord :=
  if r.status = Status.queued ∨ r.status = Status.running then
    Except.ok { r with status := Status.cancelled }
  else Except.error OpError.InvalidState

/-- Modelled from the spec: retry (§4.1/§6) — permitted only from `error` or
`cancelled`; preserves `input`, clears `progress`/`output`/`error`,
increments `attempt` and re-queues; otherwise fails with `InvalidState`. -/
def retry (r : JobRecord) : Except OpError JobRecord :=
  if r.status = Status.error ∨ r.status = Status.cancelled then
    Except.ok { r with
      status := Status.queued
      progress := none
      output := none
      error := none
      attempt := r.attempt + 1 }
  else Except.error OpError.InvalidState

/-- Modelled from the spec: successful completion (§4.4 step 6) — guarded on
`running`, stores the artifact reference. -/
def completeJob (r : JobRecord) (artifact : String) : Except OpError JobRecord :=
  if r.status = Status.running then
    Except.ok { r with status := Status.complete, output := some artifact }
  else Except.error OpError.InvalidState

/-- Modelled from the spec: failure classification (§4.4 step 7, §7) — guarded
on `running`, stores the classified cause.  Dispatcher orphan recovery (§4.2)
is this operation with cause `interrupted`. -/
def failJob (r : JobRecord) (cause : String) : Except OpError JobRecord :=
  if r.status = Status.running then
    Except.ok { r with status := Status.error, error := some cause }
  else Except.error OpError.InvalidState

/-- Modelled from the spec: the Executor's progress relay into the store
(§4.4 step 4) — a new percent is accepted only while `running` and only if it
is ≥ the last known percent, otherwise the update is dropped. -/
def reportProgress (r : JobRecord) (p : Nat) : JobRecord :=
  if r.status = Status.running then
    match r.progress with
    | none => { r with progress := some p }
    | some q => if q ≤ p then { r with progress := some p } else r
  else r

/-- From the source (`frontend/app/prompts/page.tsx` sibling `JobsPage`,
src/unnamed/part_001): `const canCancel = j.status === "queued" || j.status === "running"`. -/
def canCancel (r : JobRecord) : Bool :=
  r.status == Status.queued || r.status == Status.running

/-- From the source (`JobsPage`, src/unnamed/part_001):
`const canRetry = j.status === "error" || j.status === "cancelled"`. -/
def canRetry (r : JobRecord) : Bool :=
  r.status == Status.error || r.status == Status.cancelled

/-- `true` on the `ok` branch of a lifecycle operation. -/
def isOk {α : Type} : Except OpError α → Bool
  | Except.ok _ => true
  | Except.error _ => false

/-- A concrete job input used by witnesses. -/
def sampleInput : Input where
  prompt := "A"
  imageIds := []

/-- Claim C2: cancel succeeds exactly when the status is `queued` or
`running` (the frontend's `canCancel` guard) and fails with `InvalidState`
otherwise; retry succeeds exactly when the status is `error` or `cancelled`
(the frontend's `canRetry` guard) and fails with `InvalidState` otherwise;
both failures are returned to the caller as values, never thrown. -/
theorem C2_cancel_retry_guards (r : JobRecord) :
    isOk (cancel r) = canCancel r ∧
    (canCancel r = false → cancel r = Except.error OpError.InvalidState) ∧
    isOk (retry r) = canRetry r ∧
    (canRetry r = false → retry r = Except.error OpError.InvalidState) := by
  obtain ⟨id, st, pr, ms, inp, o, e, a⟩ := r
  cases st <;> simp [cancel, retry, canCancel, canRetry, isOk]

/-- Claim C2, witness: the guards evaluated on a concrete `complete` record. -/
theorem C2_witness :
    canCancel { createJob 0 sampleInput with status := Status.complete } = false ∧
    cancel { createJob 0 sampleInput with status := Status.complete } =
      Except.error OpError.InvalidState ∧
    canRetry { createJob 0 sampleInput with status := Status.complete } = false ∧
    retry { createJob 0 sampleInput with status := Status.complete } =
      Except.error OpError.InvalidState := by
  have h := C2_cancel_retry_guards { createJob 0 sampleInput with status := Status.complete }
  exact ⟨by decide, h.2.1 (by decide), by decide, h.2.2.2 (by decide)⟩

/-- Claim C3: retrying an `error`/`cancelled` job keeps `input` (and `id`,
`message`) exactly, clears `progress`/`output`/`error`, increments `attempt`
and sets the status to `queued`; retrying any other status fails with
`InvalidState` and produces no updated record. -/
theorem C3_retry_frame (r : JobRecord) :
    (r.status = Status.error ∨ r.status = Status.cancelled →
      retry r = Except.ok { r with
        status := Status.queued
        progress := none
        output := none
        error := none
        attempt := r.attempt + 1 }) ∧
    (¬(r.status = Status.error ∨ r.status = Status.cancelled) →
      retry r = Except.error OpError.InvalidState) := by
  constructor
  · intro h
    simp [retry, h]
  · intro h
    simp [retry, h]

/-- Claim C3, witness: retry applied to a concrete `cancelled` record with a
non-trivial input, progress and attempt counter. -/
theorem C3_witness :
    retry { createJob 7 sampleInput with
        status := Status.cancelled
        progress := some 40
        attempt := 1 } =
      Except.ok { createJob 7 sampleInput with
        status := Status.queued
        progress := none
        output := none
        error := none
        attempt := 2 } := by
  have h := C3_retry_frame { createJob 7 sampleInput with
    status := Status.cancelled
    progress := some 40
    attempt := 1 }
  exact h.1 (Or.inr rfl)

/-- One status-changing transition of the lifecycle: any one of the guarded
operations applied successfully to the record. -/
inductive Step : JobRecord → JobRecord → Prop where
  | started (r s : JobRecord) : startRun r = Except.ok s → Step r s
  | didCancel (r s : JobRecord) : cancel r = Except.ok s → Step r s
  | didRetry (r s : JobRecord) : retry r = Except.ok s → Step r s
  | didComplete (r s : JobRecord) (a : String) : completeJob r a = Except.ok s → Step r s
  | didFail (r s : JobRecord) (c : String) : failJob r c = Except.ok s → Step r s

/-- The edge set enumerated by claim C1: `queued → running`,
`running → complete | error | cancelled`, and `error/cancelled → queued`. -/
def claimEdge : Status → Status → Bool
  | Status.queued, Status.running => true
  | Status.running, Status.complete => true
  | Status.running, Status.error => true
  | Status.running, Status.cancelled => true
  | Status.error, Status.queued => true
  | Status.cancelled, Status.queued => true
  | _, _ => false

/-- The full edge set of the spec's state machine: the edges of claim C1
plus `queued → cancelled` (cancel is permitted from `queued`, §4.1/§6). -/
def specEdge (a b : Status) : Bool :=
  claimEdge a b || (a == Status.queued && b == Status.cancelled)

/-- A concrete freshly created job. -/
def jQueued : JobRecord := createJob 0 sampleInput

/-- The concrete result of cancelling `jQueued`. -/
def jQueuedCancelled : JobRecord := { jQueued with status := Status.cancelled }

/-- Claim C1, counterexample: cancelling a `queued` job is a legal transition
(`cancel` succeeds from `queued`), and it moves the status directly from
`queued` to `cancelled` — an edge missing from the claim's enumeration. -/
theorem C1_counterexample :
    Step jQueued jQueuedCancelled ∧
    jQueued.status = Status.queued ∧
    jQueuedCancelled.status = Status.cancelled ∧
    claimEdge Status.queued Status.cancelled = false :=
  ⟨Step.didCancel jQueued jQueuedCancelled rfl, rfl, rfl, rfl⟩

/-- Claim C1 (amended): every status-changing transition follows an edge of
the state machine extended with `queued → cancelled`; in particular no
transition goes directly from `queued` to `complete` or from `error` to
`complete`. -/
theorem C1_edges (r s : JobRecord) (h : Step r s) :
    specEdge r.status s.status = true := by
  cases h with
  | started h =>
      unfold startRun at h
      split at h
      · cases h
        simp_all [specEdge, claimEdge]
      · cases h
  | didCancel h =>
      unfold cancel at h
      split at h
      · cases h
        rename_i hst
        rcases hst with hst | hst <;> simp_all [specEdge, claimEdge]
      · cases h
  | didRetry h =>
      unfold retry at h
      split at h
      · cases h
        rename_i hst
        rcases hst with hst | hst <;> simp_all [specEdge, claimEdge]
      · cases h
  | didComplete a h =>
      unfold completeJob at h
      split at h
      · cases h
        simp_all [specEdge, claimEdge]
      · cases h
  | didFail c h =>
      unfold failJob at h
      split at h
      · cases h
        simp_all [specEdge, claimEdge]
      · cases h

/-- Claim C1, witness: the amended edge relation evaluated on the concrete
`queued → cancelled` transition. -/
theorem C1_witness : specEdge jQueued.status jQueuedCancelled.status = true :=
  C1_edges jQueued jQueuedCancelled
    (Step.didCancel jQueued jQueuedCancelled rfl)

/-- The invariant of claim C6: `output` is set iff the status is `complete`,
and `error` is set iff the status is `error`. -/
def wf (r : JobRecord) : Bool :=
  (r.output.isSome == (r.status == Status.complete)) &&
    (r.error.isSome == (r.status == Status.error))

/-- The records reachable from job creation by lifecycle transitions and
progress relays. -/
inductive Reach : JobRecord → Prop where
  | created (id : Nat) (inp : Input) : Reach (createJob id inp)
  | stepped (r s : JobRecord) : Reach r → Step r s → Reach s
  | progressed (r : JobRecord) (p : Nat) : Reach r → Reach (reportProgress r p)

/-- `reportProgress` only touches the `progress` field. -/
theorem reportProgress_frame (r : JobRecord) (p : Nat) :
    (reportProgress r p).status = r.status ∧
    (reportProgress r p).output = r.output ∧
    (reportProgress r p).error = r.error := by
  rw [reportProgress]
  split
  · cases hp : r.progress <;> simp
    split <;> simp
  · simp

/-- Every lifecycle transition preserves the C6 invariant. -/
theorem wf_step (r s : JobRecord) (h : Step r s) (hwf : wf r = true) :
    wf s = true := by
  cases h with
  | started h =>
      unfold startRun at h
      split at h
      · cases h
        simp_all [wf]
      · cases h
  | didCancel h =>
      unfold cancel at h
      split at h
      · cases h
        rename_i hst
        rcases hst with hst | hst <;> simp_all [wf]
      · cases h
  | didRetry h =>
      unfold retry at h
      split at h
      · cases h
        simp_all [wf]
      · cases h
  | didComplete a h =>
      unfold completeJob at h
      split at h
      · cases h
        simp_all [wf]
      · cases h
  | didFail c h =>
      unfold failJob at h
      split at h
      · cases h
        simp_all [wf]
      · cases h

/-- Claim C6: every reachable JobRecord satisfies the invariant — `output`
set iff `complete`, `error` set iff `error` — after creation, after every
guarded transition (run, cancel, retry, completion, failure classification),
and after every progress relay. -/
theorem C6_output_error_invariant (r : JobRecord) (h : Reach r) : wf r = true := by
  induction h with
  | created id inp => simp [wf, createJob]
  | stepped r s hr hstep ih => exact wf_step r s hstep ih
  | progressed r p hr ih =>
      obtain ⟨h1, h2, h3⟩ := reportProgress_frame r p
      rw [wf, h1, h2, h3]
      exact ih

/-- Claim C6, witness: the invariant evaluated on a concrete reachable record
(created, started, completed). -/
theorem C6_witness : wf (reportProgress jQueued 5) = true :=
  C6_output_error_invariant (reportProgress jQueued 5)
    (Reach.progressed jQueued 5 (Reach.created 0 sampleInput))

/-- `true` on the three terminal statuses (§4.1, glossary). -/
def isTerminal : Status → Bool
  | Status.complete => true
  | Status.error => true
  | Status.cancelled => true
  | _ => false

/-- Modelled from the spec: the ephemeral EventMessage of §3 — job id, kind,
and the JobRecord fields relevant to that kind. -/
structure EventMessage where
  jobId : Nat
  kind : Status
  progress : Option Nat
  output : Option String
  errMsg : Option String
deriving DecidableEq, Repr

/-- The synthetic event carrying the current state of a record. -/
def eventOfRecord (r : JobRecord) : EventMessage where
  jobId := r.id
  kind := r.status
  progress := r.progress
  output := r.output
  errMsg := r.error

/-- Modelled from the spec: the Hub's per-subscriber delivery after the
synthetic first message (§4.5) — events are relayed in order and the channel
is closed right after the first terminal event is delivered. -/
def relayUntilTerminal : List EventMessage → List EventMessage
  | [] => []
  | e :: es => if isTerminal e.kind then [e] else e :: relayUntilTerminal es

/-- Modelled from the spec: the full sequence a subscriber receives (§4.5) —
registering immediately yields the current JobRecord state as a synthetic
first message; if that state is already terminal the channel closes at once,
otherwise subsequent events are relayed until a terminal one. -/
def subscribe (r : JobRecord) (pending : List EventMessage) : List EventMessage :=
  if isTerminal r.status then [eventOfRecord r]
  else eventOfRecord r :: relayUntilTerminal pending

/-- In the relayed part of a subscription, a terminal event is always the
last element. -/
theorem relayUntilTerminal_last (es : List EventMessage) :
    ∀ (l t : List EventMessage) (e : EventMessage),
      relayUntilTerminal es = l ++ e :: t → isTerminal e.kind = true → t = [] := by
  induction es with
  | nil =>
      intro l t e h _
      rw [relayUntilTerminal] at h
      exact absurd h.symm (List.append_ne_nil_of_right_ne_nil l (by simp))
  | cons x xs ih =>
      intro l t e h hterm
      rw [relayUntilTerminal] at h
      split at h
      · cases l with
        | nil =>
            simp only [List.nil_append] at h
            obtain ⟨-, h2⟩ := List.cons.inj h
            exact h2.symm
        | cons f fs =>
            simp only [List.cons_append] at h
            obtain ⟨-, h2⟩ := List.cons.inj h
            exact absurd h2.symm (List.append_ne_nil_of_right_ne_nil fs (by simp))
      · cases l with
        | nil =>
            obtain ⟨h1, -⟩ := List.cons.inj h
            rename_i hnt
            rw [← h1] at hterm
            simp [hterm] at hnt
        | cons f fs =>
            obtain ⟨-, h2⟩ := List.cons.inj h
            exact ih fs t e h2 hterm

/-- Claim C4: on any per-job subscription, once a terminal event message is
delivered it is the last message delivered — no event follows a terminal
event, and the channel (the delivered sequence) ends there. -/
theorem C4_terminal_is_last (r : JobRecord) (pending l t : List EventMessage)
    (e : EventMessage) (hsplit : subscribe r pending = l ++ e :: t)
    (hterm : isTerminal e.kind = true) : t = [] := by
  rw [subscribe] at hsplit
  split at hsplit
  · cases l with
    | nil =>
        obtain ⟨-, h2⟩ := List.cons.inj hsplit
        exact h2.symm
    | cons f fs =>
        obtain ⟨-, h2⟩ := List.cons.inj hsplit
        exact absurd h2.symm (List.append_ne_nil_of_right_ne_nil fs (by simp))
  · cases l with
    | nil =>
        obtain ⟨h1, -⟩ := List.cons.inj hsplit
        rename_i hnt
        rw [← h1] at hterm
        simp only [eventOfRecord] at hterm
        simp [hterm] at hnt
    | cons f fs =>
        obtain ⟨-, h2⟩ := List.cons.inj hsplit
        exact relayUntilTerminal_last pending fs t e h2 hterm

/-- A concrete running record used by the event-hub witnesses. -/
def jRunning : JobRecord := { createJob 1 sampleInput with status := Status.running }

/-- A concrete completed record used by the event-hub witnesses. -/
def jComplete : JobRecord :=
  { createJob 1 sampleInput with status := Status.complete, output := some "img" }

/-- Claim C4, witness: in the concrete subscription that sees a `running`
first message followed by a `complete` event, nothing follows the terminal
event. -/
theorem C4_witness :
    isTerminal (eventOfRecord jComplete).kind = true ∧
    ([] : List EventMessage) = [] := by
  refine ⟨rfl, ?_⟩
  exact C4_terminal_is_last jRunning [eventOfRecord jComplete]
    [eventOfRecord jRunning] [] (eventOfRecord jComplete) rfl rfl

/-- Claim C7: registering a subscriber immediately yields the current
JobRecord state as the synthetic first message, and a subscriber attaching
after the job is already terminal receives exactly that terminal state and
then the closed stream — a finite, one-element delivery, never a wait. -/
theorem C7_late_subscriber (r : JobRecord) (pending : List EventMessage) :
    (subscribe r pending).head? = some (eventOfRecord r) ∧
    (isTerminal r.status = true → subscribe r pending = [eventOfRecord r]) := by
  rw [subscribe]
  split
  · exact ⟨rfl, fun _ => rfl⟩
  · rename_i hnt
    exact ⟨rfl, fun h => absurd h (by simp [hnt])⟩

/-- Claim C7, witness: a subscriber attaching to the concrete completed job
receives exactly the terminal state. -/
theorem C7_witness :
    (subscribe jComplete [eventOfRecord jRunning]).head? =
      some (eventOfRecord jComplete) ∧
    subscribe jComplete [eventOfRecord jRunning] = [eventOfRecord jComplete] := by
  have h := C7_late_subscriber jComplete [eventOfRecord jRunning]
  exact ⟨h.1, h.2 rfl⟩

/-- Modelled from the spec: the Executor's acceptance test for an incoming
progress percent (§4.4 step 4) — accept iff there is no last known percent or
the new one is ≥ the last known one. -/
def acceptProgress : Option Nat → Nat → Bool
  | none, _ => true
  | some q, p => decide (q ≤ p)

/-- Modelled from the spec: the sequence of percents actually relayed to the
store and to subscribers, given the last known percent and the raw updates
emitted by the backend; rejected updates are dropped, not relayed. -/
def relayProgress : Option Nat → List Nat → List Nat
  | _, [] => []
  | last, p :: ps =>
      if acceptProgress last p then p :: relayProgress (some p) ps
      else relayProgress last ps

/-- A sequence of percents is non-decreasing. -/
def nonDecreasing : List Nat → Bool
  | [] => true
  | [_] => true
  | a :: b :: rest => decide (a ≤ b) && nonDecreasing (b :: rest)

/-- Every percent relayed after last known percent `q` is ≥ `q`. -/
theorem relayProgress_ge (ps : List Nat) :
    ∀ (q : Nat), ∀ x ∈ relayProgress (some q) ps, q ≤ x := by
  induction ps with
  | nil => intro q x hx; simp [relayProgress] at hx
  | cons p ps ih =>
      intro q x hx
      rw [relayProgress] at hx
      split at hx
      · rename_i hacc
        simp only [acceptProgress, decide_eq_true_eq] at hacc
        rcases List.mem_cons.mp hx with h | h
        · exact h ▸ hacc
        · exact Nat.le_trans hacc (ih p x h)
      · exact ih q x hx

/-- `nonDecreasing` holds of `a :: l` when `a` bounds `l` from below and `l`
is itself non-decreasing. -/
theorem nonDecreasing_cons (a : Nat) (l : List Nat)
    (h1 : ∀ x ∈ l, a ≤ x) (h2 : nonDecreasing l = true) :
    nonDecreasing (a :: l) = true := by
  cases l with
  | nil => rfl
  | cons b t =>
      rw [nonDecreasing]
      have hb : a ≤ b := h1 b (by simp)
      simp [hb, h2]

/-- The relayed percent sequence is non-decreasing from any starting point. -/
theorem relayProgress_nonDecreasing (ps : List Nat) :
    ∀ (last : Option Nat), nonDecreasing (relayProgress last ps) = true := by
  induction ps with
  | nil => intro last; rfl
  | cons p ps ih =>
      intro last
      rw [relayProgress]
      split
      · exact nonDecreasing_cons p (relayProgress (some p) ps)
          (relayProgress_ge ps p) (ih (some p))
      · exact ih last

/-- Claim C5: the percents the Executor relays to the store and subscribers
form a non-decreasing sequence, and an update whose percent is below the last
known percent is dropped — it does not appear in the relayed sequence. -/
theorem C5_progress_monotone :
    (∀ (last : Option Nat) (ps : List Nat),
      nonDecreasing (relayProgress last ps) = true) ∧
    (∀ (q p : Nat) (ps : List Nat), p < q →
      relayProgress (some q) (p :: ps) = relayProgress (some q) ps) := by
  constructor
  · intro last ps
    exact relayProgress_nonDecreasing ps last
  · intro q p ps h
    rw [relayProgress]
    simp [acceptProgress, Nat.not_le.mpr h]

/-- Claim C5, witness: the out-of-order update `1` after last known percent
`3` is dropped, and a concrete relayed sequence is non-decreasing. -/
theorem C5_witness :
    nonDecreasing (relayProgress none [3, 1, 5]) = true ∧
    1 < 3 ∧
    relayProgress (some 3) [1, 5] = relayProgress (some 3) [5] :=
  ⟨C5_progress_monotone.1 none [3, 1, 5], by decide,
    C5_progress_monotone.2 3 1 [5] (by decide)⟩

/-- Modelled from the spec: the central lease table (§5) — the set of job ids
whose processing lease is currently held, as a list.  Acquiring an
already-held lease fails immediately (non-blocking) with `AlreadyRunning`. -/
def acquireLease (held : List Nat) (id : Nat) : Except OpError (List Nat) :=
  if id ∈ held then Except.error OpError.AlreadyRunning
  else Except.ok (id :: held)

/-- Modelled from the spec: unconditional lease release on Executor exit
(§4.4 step 8). -/
def releaseLease (held : List Nat) (id : Nat) : List Nat :=
  held.filter (fun x => x != id)

/-- Modelled from the spec: the start of one dispatch attempt (§4.4 steps
1–2) — acquire the lease for the job's id, then take `queued → running`.
Returns the lease table, the record, and the failure if any; a losing
attempt returns both unchanged. -/
def tryDispatch (held : List Nat) (r : JobRecord) :
    List Nat × JobRecord × Option OpError :=
  match acquireLease held r.id with
  | Except.error e => (held, r, some e)
  | Except.ok held2 =>
      match startRun r with
      | Except.ok s => (held2, s, none)
      | Except.error e => (releaseLease held2 r.id, r, some e)

/-- Claim C8: a second acquisition of an already-held lease fails immediately
with `AlreadyRunning`; the losing dispatch attempt aborts with the lease
table and the JobRecord untouched; and acquisition/release preserve the
at-most-one-lease-per-id invariant (no duplicate ids in the table). -/
theorem C8_lease_exclusive :
    (∀ (held : List Nat) (id : Nat), id ∈ held →
      acquireLease held id = Except.error OpError.AlreadyRunning) ∧
    (∀ (held : List Nat) (r : JobRecord), r.id ∈ held →
      tryDispatch held r = (held, r, some OpError.AlreadyRunning)) ∧
    (∀ (held held2 : List Nat) (id : Nat), held.Nodup →
      acquireLease held id = Except.ok held2 → held2.Nodup) ∧
    (∀ (held : List Nat) (id : Nat), held.Nodup → (releaseLease held id).Nodup) := by
  refine ⟨?_, ?_, ?_, ?_⟩
  · intro held id h
    simp [acquireLease, h]
  · intro held r h
    rw [tryDispatch]
    simp [acquireLease, h]
  · intro held held2 id hnd hacq
    rw [acquireLease] at hacq
    split at hacq
    · cases hacq
    · rename_i hmem
      cases hacq
      exact List.nodup_cons.mpr ⟨hmem, hnd⟩
  · intro held id hnd
    exact List.Nodup.filter _ hnd

/-- Claim C8, witness: with the lease for id 5 held, a concurrent acquisition
and a concurrent dispatch of the concrete job with id 5 both fail with
`AlreadyRunning` and change nothing, and acquisition/release keep the table
duplicate-free. -/
theorem C8_witness :
    acquireLease [5] 5 = Except.error OpError.AlreadyRunning ∧
    tryDispatch [5] { createJob 5 sampleInput with id := 5 } =
      ([5], { createJob 5 sampleInput with id := 5 }, some OpError.AlreadyRunning) ∧
    List.Nodup [5, 9] ∧
    List.Nodup (releaseLease [5, 9] 5) := by
  have h := C8_lease_exclusive
  refine ⟨h.1 [5] 5 (by simp), h.2.1 [5] _ (by simp), by simp, ?_⟩
  exact h.2.2.2 [5, 9] 5 (by simp)

/-- From the source (`InferenceStudio.toggle` in src/unnamed/part_006 and the
identical `TestPage.toggle` in frontend/app/test/page.tsx):
`prev.includes(id) ? prev.filter(x => x !== id) : prev.length >= 10 ? prev : [...prev, id]`. -/
def toggle (prev : List String) (id : String) : List String :=
  if id ∈ prev then prev.filter (fun x => x != id)
  else if 10 ≤ prev.length then prev
  else prev ++ [id]

/-- `toggle` never grows the selection past 10. -/
theorem toggle_length (prev : List String) (id : String)
    (h : prev.length ≤ 10) : (toggle prev id).length ≤ 10 := by
  rw [toggle]
  split
  · exact Nat.le_trans (List.length_filter_le _ _) h
  · split
    · exact h
    · rename_i hlen
      simp only [List.length_append, List.length_cons, List.length_nil]
      omega

/-- Any toggle-reachable selection from a start of length ≤ 10 keeps
length ≤ 10. -/
theorem toggle_foldl_length (ops : List String) :
    ∀ (prev : List String), prev.length ≤ 10 →
      (ops.foldl toggle prev).length ≤ 10 := by
  induction ops with
  | nil => intro prev h; exact h
  | cons o os ih =>
      intro prev h
      exact ih (toggle prev o) (toggle_length prev o h)

/-- Claim C9: starting from the empty selection, any sequence of toggles
yields at most 10 selected reference-image ids; toggling an id already in
the selection removes it; toggling a new id when the selection already holds
10 ids leaves the selection unchanged. -/
theorem C9_selection_bounded :
    (∀ (ops : List String), (ops.foldl toggle []).length ≤ 10) ∧
    (∀ (prev : List String) (id : String), id ∈ prev →
      toggle prev id = prev.filter (fun x => x != id)) ∧
    (∀ (prev : List String) (id : String), id ∉ prev → prev.length = 10 →
      toggle prev id = prev) := by
  refine ⟨?_, ?_, ?_⟩
  · intro ops
    exact toggle_foldl_length ops [] (by simp)
  · intro prev id h
    simp [toggle, h]
  · intro prev id h hlen
    simp [toggle, h, hlen]

/-- Claim C9, witness: evaluated on a run of twelve toggles (with one
deselection) and on a full ten-element selection. -/
theorem C9_witness :
    (List.foldl toggle []
      ["a", "b", "c", "d", "e", "f", "g", "b", "h", "i", "j", "k"]).length ≤ 10 ∧
    toggle ["a", "b"] "b" = ["a"] ∧
    toggle ["0", "1", "2", "3", "4", "5", "6", "7", "8", "9"] "x" =
      ["0", "1", "2", "3", "4", "5", "6", "7", "8", "9"] := by
  have h := C9_selection_bounded
  refine ⟨h.1 _, ?_, ?_⟩
  · rw [h.2.1 ["a", "b"] "b" (by simp)]
    rfl
  · exact h.2.2 _ "x" (by simp) (by simp)

/-- JavaScript whitespace test used by `String.prototype.trim`. -/
def isWs (c : Char) : Bool := c.isWhitespace

/-- The space character inserted between prompt and tag. -/
def spaceChar : Char := Char.ofNat 32

/-- Leading-whitespace removal, on strings as lists of characters. -/
def trimLeft : List Char → List Char
  | [] => []
  | c :: cs => if isWs c then trimLeft cs else c :: cs

/-- Trailing-whitespace removal. -/
def trimRight (l : List Char) : List Char := (trimLeft l.reverse).reverse

/-- JavaScript `trim()`: strip whitespace from both ends. -/
def trim (l : List Char) : List Char := trimRight (trimLeft l)

/-- `startsWith p t`: `t` is a leading part of `p`. -/
def startsWith : List Char → List Char → Bool
  | _, [] => true
  | [], _ :: _ => false
  | c :: cs, d :: ds => c == d && startsWith cs ds

/-- JavaScript `p.includes(t)`: `t` occurs contiguously inside `p`. -/
def includes : List Char → List Char → Bool
  | [], t => startsWith [] t
  | c :: cs, t => startsWith (c :: cs) t || includes cs t

/-- From the source (`InferenceStudio.insertTag` in src/unnamed/part_006):
if the prompt already contains the tag it is left alone, otherwise the
trimmed prompt, a space and the tag are concatenated and the result is
trimmed again. -/
def insertTag (p t : List Char) : List Char :=
  if includes p t then p else trim (trim p ++ spaceChar :: t)

theorem trimLeft_length (l : List Char) : (trimLeft l).length ≤ l.length := by
  induction l with
  | nil => exact Nat.le_refl 0
  | cons c cs ih =>
      rw [trimLeft]
      split
      · simp only [List.length_cons]
        omega
      · exact Nat.le_refl _

theorem trimLeft_eq_of_length (l : List Char)
    (h : (trimLeft l).length = l.length) : trimLeft l = l := by
  induction l with
  | nil => rfl
  | cons c cs ih =>
      cases hw : isWs c with
      | false => simp [trimLeft, hw]
      | true =>
          rw [trimLeft, if_pos hw] at h
          have := trimLeft_length cs
          simp only [List.length_cons] at h
          omega

theorem trimRight_length (l : List Char) : (trimRight l).length ≤ l.length := by
  rw [trimRight, List.length_reverse]
  have := trimLeft_length l.reverse
  simpa using this

theorem trim_left_of_trim (t : List Char) (h : trim t = t) : trimLeft t = t := by
  apply trimLeft_eq_of_length
  have h1 := trimLeft_length t
  have h2 := trimRight_length (trimLeft t)
  have h3 : (trim t).length = t.length := by rw [h]
  rw [trim] at h3
  omega

theorem trim_right_of_trim (t : List Char) (h : trim t = t) : trimRight t = t := by
  have hl := trim_left_of_trim t h
  rw [trim, hl] at h
  exact h

theorem trimLeft_fix_head (c : Char) (cs : List Char)
    (h : trimLeft (c :: cs) = c :: cs) : isWs c = false := by
  cases hw : isWs c with
  | false => rfl
  | true =>
      rw [trimLeft, if_pos hw] at h
      have := trimLeft_length cs
      rw [h] at this
      simp only [List.length_cons] at this
      omega

theorem trimLeft_idem (l : List Char) : trimLeft (trimLeft l) = trimLeft l := by
  induction l with
  | nil => rfl
  | cons c cs ih =>
      cases hw : isWs c with
      | true => rw [trimLeft, if_pos hw]; exact ih
      | false => simp [trimLeft, hw]

theorem trimLeft_suffix_decomp (l : List Char) : ∃ k, l = k ++ trimLeft l := by
  induction l with
  | nil => exact ⟨[], rfl⟩
  | cons c cs ih =>
      cases hw : isWs c with
      | false => exact ⟨[], by simp [trimLeft, hw]⟩
      | true =>
          obtain ⟨k, hk⟩ := ih
          refine ⟨c :: k, ?_⟩
          rw [trimLeft, if_pos hw, List.cons_append, ← hk]

theorem trimRight_decomp (l : List Char) : ∃ m, l = trimRight l ++ m := by
  obtain ⟨k, hk⟩ := trimLeft_suffix_decomp l.reverse
  refine ⟨k.reverse, ?_⟩
  calc l = l.reverse.reverse := (List.reverse_reverse l).symm
    _ = (k ++ trimLeft l.reverse).reverse := by rw [← hk]
    _ = (trimLeft l.reverse).reverse ++ k.reverse := List.reverse_append _ _
    _ = trimRight l ++ k.reverse := by rw [trimRight]

theorem trimLeft_trimRight_fix (l : List Char) (h : trimLeft l = l) :
    trimLeft (trimRight l) = trimRight l := by
  cases hTR : trimRight l with
  | nil => rfl
  | cons c cs =>
      obtain ⟨m, hm⟩ := trimRight_decomp l
      rw [hTR] at hm
      have hl2 : trimLeft (c :: (cs ++ m)) = c :: (cs ++ m) := by
        rw [← List.cons_append, ← hm]
        exact h
      have hc := trimLeft_fix_head c (cs ++ m) hl2
      simp [trimLeft, hc]

theorem trimLeft_trim (p : List Char) : trimLeft (trim p) = trim p := by
  rw [trim]
  exact trimLeft_trimRight_fix (trimLeft p) (trimLeft_idem p)

theorem trimRight_append_fix (t : List Char) (hne : t ≠ [])
    (h : trimRight t = t) (l : List Char) : trimRight (l ++ t) = l ++ t := by
  have hrt : trimLeft t.reverse = t.reverse := by
    have h2 := congrArg List.reverse h
    rw [trimRight, List.reverse_reverse] at h2
    exact h2
  cases hTR : t.reverse with
  | nil => exact absurd (List.reverse_eq_nil_iff.mp hTR) hne
  | cons c cs =>
      have hc : isWs c = false := trimLeft_fix_head c cs (hTR ▸ hrt)
      rw [trimRight, List.reverse_append, hTR, List.cons_append]
      simp only [trimLeft, hc, Bool.false_eq_true, if_false]
      rw [← List.cons_append, ← hTR, ← List.reverse_append, List.reverse_reverse]

theorem startsWith_refl (t : List Char) : startsWith t t = true := by
  induction t with
  | nil => rfl
  | cons c cs ih => simp [startsWith, ih]

theorem includes_nil (p : List Char) : includes p [] = true := by
  cases p with
  | nil => rfl
  | cons c cs => simp [includes, startsWith]

theorem includes_append_self (l t : List Char) : includes (l ++ t) t = true := by
  induction l with
  | nil =>
      rw [List.nil_append]
      cases t with
      | nil => rfl
      | cons c cs => simp [includes, startsWith_refl (c :: cs)]
  | cons c l ih =>
      rw [List.cons_append, includes, ih, Bool.or_true]

/-- Claim C10, counterexample: for the tag `"a "` (trailing space) and the
empty prompt, one insertion yields `"a"`, which does not contain `"a "`, so a
second insertion appends the tag again — `insertTag` is not idempotent for
every tag string. -/
theorem C10_counterexample :
    insertTag (insertTag [] ['a', spaceChar]) ['a', spaceChar] ≠
      insertTag [] ['a', spaceChar] := by decide

/-- Claim C10 (amended): the containment short-circuit holds for every prompt
and tag — if the prompt already contains the tag, `insertTag` leaves it
unchanged — and for every tag with no leading or trailing whitespace (a tag
fixed by `trim`, as the `@imageN` tags of the studio are), applying
`insertTag` twice yields the same prompt as applying it once. -/
theorem C10_insertTag_idem (p t : List Char) :
    (includes p t = true → insertTag p t = p) ∧
    (trim t = t → insertTag (insertTag p t) t = insertTag p t) := by
  constructor
  · intro h
    simp [insertTag, h]
  · intro ht
    cases hc : includes p t with
    | true => simp [insertTag, hc]
    | false =>
        have hne : t ≠ [] := by
          intro h0
          rw [h0, includes_nil p] at hc
          cases hc
        have h1 : insertTag p t = trim (trim p ++ spaceChar :: t) := by
          simp [insertTag, hc]
        have hr : includes (trim (trim p ++ spaceChar :: t)) t = true := by
          cases hq : trim p with
          | nil =>
              have hst : trim ([] ++ spaceChar :: t) = t := by
                rw [List.nil_append, trim]
                have hsp : isWs spaceChar = true := by decide
                simp only [trimLeft, hsp, if_true]
                rw [trim_left_of_trim t ht]
                exact trim_right_of_trim t ht
              rw [hst]
              simpa using includes_append_self [] t
          | cons c0 q0 =>
              have hfix : trimLeft (trim p) = trim p := trimLeft_trim p
              rw [hq] at hfix
              have hc0 : isWs c0 = false := trimLeft_fix_head c0 q0 hfix
              have hTL : trimLeft ((c0 :: q0) ++ spaceChar :: t) =
                  (c0 :: q0) ++ spaceChar :: t := by
                rw [List.cons_append]
                simp [trimLeft, hc0]
              have hTR : trimRight ((c0 :: q0) ++ spaceChar :: t) =
                  (c0 :: q0) ++ spaceChar :: t := by
                have hassoc : (c0 :: q0) ++ spaceChar :: t =
                    ((c0 :: q0) ++ [spaceChar]) ++ t := by simp
                rw [hassoc]
                exact trimRight_append_fix t hne (trim_right_of_trim t ht)
                  ((c0 :: q0) ++ [spaceChar])
              have htr2 : trim ((c0 :: q0) ++ spaceChar :: t) =
                  (c0 :: q0) ++ spaceChar :: t := by
                rw [trim, hTL, hTR]
              rw [htr2]
              have hassoc : (c0 :: q0) ++ spaceChar :: t =
                  ((c0 :: q0) ++ [spaceChar]) ++ t := by simp
              rw [hassoc]
              exact includes_append_self ((c0 :: q0) ++ [spaceChar]) t
        rw [h1]
        simp [insertTag, hr]

/-- Claim C10, witness: the containment short-circuit on a prompt containing
the tag, and idempotence on a concrete whitespace-free tag. -/
theorem C10_witness :
    (includes ['h', 'i'] ['i'] = true ∧ insertTag ['h', 'i'] ['i'] = ['h', 'i']) ∧
    (trim ['@', 'x'] = ['@', 'x'] ∧
      insertTag (insertTag ['h', 'i'] ['@', 'x']) ['@', 'x'] =
        insertTag ['h', 'i'] ['@', 'x']) :=
  ⟨⟨by decide, (C10_insertTag_idem ['h', 'i'] ['i']).1 (by decide)⟩,
    ⟨by decide, (C10_insertTag_idem ['h', 'i'] ['@', 'x']).2 (by decide)⟩⟩

end AiAgency
